import Mathlib

/-!
Shallow embedding of the go-verkle commitment-configuration, polynomial
algebra, key-path utilities and node codec (src/config.go), together with
proofs of the specified properties.

Go slices of bytes are modelled as `List ℕ` (each entry a byte value),
field elements as `ZMod r` for the BLS12-381 scalar modulus `r`, and the
group G1 as the cyclic group of order `r` written additively, i.e. `ZMod r`
with the generator modelled as `1` and scalar multiplication as field
multiplication.  Go code that can panic (out-of-range slice or index
expressions) is modelled with `Option`-valued slice/index primitives and a
distinguished `panicked` result.
-/

namespace Verkle

/-- The BLS12-381 scalar-field modulus, the decimal literal hard-coded in
`initTreeConfig` (src/config.go line 121). -/
def rBLS : ℕ :=
  52435875175126190479447740508185965837690552500527637822603658699938581184513

/-- The scalar field `bls.Fr`, modelled as the integers mod `rBLS`. -/
abbrev Fr := ZMod rBLS

/-- Model of `bls.G1Point`: the subgroup used is cyclic of order `rBLS`, so it
is modelled as `ZMod rBLS` under addition; `bls.MulG1` (scalar multiplication)
becomes field multiplication and `bls.ZERO_G1` becomes `0`. -/
abbrev G1 := Fr

/-- Model of `bls.DivModFr`: field division, written as multiplication by the
inverse. -/
def frDiv (a b : Fr) : Fr := a * b⁻¹

/-- Model of `bls.GenG1`, the group-1 generator, which generates the cyclic
group modelled by `G1`. -/
def GenG1 : G1 := 1

/-- The constant `multiExpThreshold8 = 25` (src/config.go line 37). -/
def multiExpThreshold8 : ℕ := 25

/-- Modelled from the spec: the width-10 multi-exponentiation threshold
constant is defined outside src/; the spec fixes only that it is a distinct
constant keyed by width.  Its numeric value does not affect any claim. -/
def multiExpThreshold10 : ℕ := 110

/-- Modelled from the spec: the external go-kzg table `bls.Scale2RootOfUnity`
of primitive `2^w`-th roots of unity in the scalar field, modelled as the
standard 2-adic roots derived from the multiplicative generator 7 of the
field.  No claim depends on the concrete value of these roots. -/
def Scale2RootOfUnity (w : ℕ) : Fr := (7 : Fr) ^ ((rBLS - 1) / 2 ^ w)

/-- The `TreeConfig` structure (src/config.go lines 39-51). -/
structure TreeConfig where
  width : ℕ
  nodeWidth : ℕ
  modulus : ℕ
  omegaIs : List Fr
  inverses : List Fr
  nodeWidthInversed : Fr
  lg1 : List G1
  multiExpThreshold : ℕ

/-- Embedding of the accumulation loop pattern `acc, acc*x, acc*x*x, ...`
used to build both the monomial SRS (powers of the secret, src/config.go
lines 75-87) and the root-of-unity table (lines 113-118): the returned list
has `n` entries, entry `k` being `acc * x ^ k`. -/
def powerAcc (x : Fr) : Fr → ℕ → List Fr
  | _, 0 => []
  | acc, n + 1 => acc :: powerAcc x (acc * x) n

/-- The hard-coded placeholder secret scalar (src/config.go line 73). -/
def sSecret : Fr := 1927409816240961209460912649124

/-- The monomial-form group-1 SRS `s1Out` (src/config.go lines 79-87):
entry `i` is `s^i` times the generator.  The group-2 SRS built alongside it
is unused downstream and is not modelled. -/
def s1Out (w : ℕ) : List G1 := (powerAcc sSecret 1 (2 ^ w)).map (fun p => p * GenG1)

/-- Modelled from the spec: the external go-kzg inverse FFT over the group
(`fftCfg.FFTG1(s1Out, true)`, src/config.go line 90), modelled as the inverse
discrete Fourier transform over the evaluation domain.  No claim depends on
the values it produces. -/
def fftG1Inv (w : ℕ) (xs : List G1) : List G1 :=
  (List.range (2 ^ w)).map (fun j =>
    ((2 ^ w : ℕ) : Fr)⁻¹ *
      ((List.range (2 ^ w)).map (fun i =>
        Scale2RootOfUnity w ^ ((2 ^ w - (i * j) % 2 ^ w) % 2 ^ w) * xs.getD i 0)).sum)

/-- Embedding of `initTreeConfig` (src/config.go lines 99-138).  The
root-of-unity table is the `nodeWidth` successive powers of the width-indexed
primitive root; `inverses[0]` is the additive identity and `inverses[i]` for
`i ≥ 1` is `1 / (1 - ω^i)`; `multiExpThreshold` is first set to the width-8
constant and overridden for width 10. -/
def initTreeConfig (w : ℕ) (lg1 : List G1) : TreeConfig :=
  { width := w
    nodeWidth := 2 ^ w
    modulus := rBLS
    omegaIs := powerAcc (Scale2RootOfUnity w) 1 (2 ^ w)
    inverses := 0 :: (List.range (2 ^ w - 1)).map (fun j =>
      frDiv 1 (1 - (powerAcc (Scale2RootOfUnity w) 1 (2 ^ w)).getD (j + 1) 0))
    nodeWidthInversed := ((2 ^ w : ℕ) : Fr)⁻¹
    lg1 := lg1
    multiExpThreshold := if w = 10 then multiExpThreshold10 else multiExpThreshold8 }

/-- Embedding of `GetTreeConfig` (src/config.go lines 62-97) without the
process-wide memoization cache and mutex, which do not change the returned
value: build the monomial SRS, transform it to Lagrange form with the inverse
group FFT, and hand both to `initTreeConfig`. -/
def GetTreeConfig (w : ℕ) : TreeConfig := initTreeConfig w (fftG1Inv w (s1Out w))

/-- The value written to `q[i]` by iteration `i ≠ index` of the
`innerQuotients` loop (src/config.go lines 152-155):
`(f[i] - f[index]) * omegaIs[(len - i) % len] * inverses[(index + n - i) % n]`. -/
def innerQi (tc : TreeConfig) (f : List Fr) (index i : ℕ) : Fr :=
  (f.getD i 0 - f.getD index 0)
    * tc.omegaIs.getD ((tc.omegaIs.length - i) % tc.omegaIs.length) 0
    * tc.inverses.getD ((index + tc.nodeWidth - i) % tc.nodeWidth) 0

/-- The root-of-unity factor `omegaIs[(i - index + n) % n]` used when
iteration `i` subtracts its contribution from `q[index]` (src/config.go
lines 149 and 158); the Go modulus acts on machine integers, modelled in
`ℤ`. -/
def innerOm2 (tc : TreeConfig) (index i : ℕ) : Fr :=
  tc.omegaIs.getD
    (((i : ℤ) - (index : ℤ) + (tc.nodeWidth : ℤ)) % (tc.nodeWidth : ℤ)).toNat 0

/-- Embedding of the loop body of `innerQuotients` (src/config.go lines
145-162) acting on the quotient array, modelled as a function `ℕ → Fr`
updated in place.  The iteration for `i = index` is skipped; otherwise
`q[i]` is written and its contribution is subtracted from `q[index]`. -/
def innerStep (tc : TreeConfig) (f : List Fr) (index : ℕ) (q : ℕ → Fr) (i : ℕ) :
    ℕ → Fr :=
  if i = index then q
  else
    let qi := innerQi tc f index i
    let q1 := Function.update q i qi
    Function.update q1 index (q1 index + (0 - innerOm2 tc index i * qi))

/-- The quotient array computed by `innerQuotients`, as a function of the
index: the zero-initialised array threaded through the loop over
`0 ≤ i < nodeWidth`. -/
def innerQuotientsFun (tc : TreeConfig) (f : List Fr) (index : ℕ) : ℕ → Fr :=
  (List.range tc.nodeWidth).foldl (innerStep tc f index) (fun _ => 0)

/-- Embedding of `innerQuotients` (src/config.go lines 141-165): the returned
slice of length `nodeWidth`. -/
def innerQuotients (tc : TreeConfig) (f : List Fr) (index : ℕ) : List Fr :=
  (List.range tc.nodeWidth).map (innerQuotientsFun tc f index)

/-- Embedding of `outerQuotients` (src/config.go lines 168-179): a direct
per-point division, no accumulation. -/
def outerQuotients (tc : TreeConfig) (f : List Fr) (z y : Fr) : List Fr :=
  (List.range tc.nodeWidth).map (fun i =>
    frDiv (f.getD i 0 - y) (tc.omegaIs.getD i 0 - z))

/-- Model of the external `bls.LinCombG1` multi-scalar multiplication: the
sum of `scalars[i] • points[i]`. -/
def linCombG1 (points : List G1) (scalars : List Fr) : G1 :=
  (List.zipWith (fun p s => s * p) points scalars).sum

/-- Embedding of `evalPoly` (src/config.go lines 182-198): delegate to the
multi-scalar multiplication when the non-zero count meets the threshold,
otherwise accumulate `SRS[i] * poly[i]` over the non-zero entries starting
from the group identity.  The Go count `nodeWidth - emptyChildren` is a
machine-integer subtraction, modelled in `ℤ`. -/
def evalPoly (tc : TreeConfig) (poly : List Fr) (emptyChildren : ℕ) : G1 :=
  if (tc.multiExpThreshold : ℤ) ≤ (tc.nodeWidth : ℤ) - (emptyChildren : ℤ) then
    linCombG1 tc.lg1 poly
  else
    (List.range poly.length).foldl
      (fun comm i =>
        if poly.getD i 0 = 0 then comm
        else comm + tc.lg1.getD i 0 * poly.getD i 0) 0

/-- Embedding of `equalPaths` (src/config.go lines 200-213).  The length
check precedes the width dispatch; an unsupported width panics (`none`); the
Go slice expressions `key[:31]` and index expression `key[31]` panic when the
key is too short, and the width-10 conjunction short-circuits, so the final
byte is only read when the first 31 bytes agree. -/
def equalPaths (tc : TreeConfig) (key1 key2 : List ℕ) : Option Bool :=
  if key1.length ≠ key2.length then some false
  else if tc.width = 8 then
    if key1.length < 31 then none
    else some (decide (key1.take 31 = key2.take 31))
  else if tc.width = 10 then
    if key1.length < 31 then none
    else if key1.take 31 ≠ key2.take 31 then some false
    else if key1.length < 32 then none
    else some (decide (key1.getD 31 0 &&& 0xa0 = key2.getD 31 0 &&& 0xa0))
  else none

/-! Node codec (the second source file of the repository, concatenated into
src/config.go after line 248). -/

/-- Modelled from the spec: `NodeWidth` is defined outside src/; the codec
assumes the width-8 tree shape with a 32-byte key, so 256 children per node. -/
def NodeWidth : ℕ := 256

/-- Modelled from the spec: `StemSize` is defined outside src/; the stem is
the key size minus one byte, so 31. -/
def StemSize : ℕ := 31

/-- Modelled from the spec: `banderwagon.UncompressedSize`, the uncompressed
group-element encoding size of the external curve library, 64 bytes. -/
def uncompressedSize : ℕ := 64

/-- Modelled from the spec: `LeafValueSize` is defined outside src/; leaf
values are fixed 32-byte blobs. -/
def LeafValueSize : ℕ := 32

def nodeTypeSize : ℕ := 1
def bitlistSize : ℕ := NodeWidth / 8
def nodeTypeOffset : ℕ := 0
def internalBitlistOffset : ℕ := nodeTypeOffset + nodeTypeSize
def internalCommitmentOffset : ℕ := internalBitlistOffset + bitlistSize
def leafStemOffset : ℕ := nodeTypeOffset + nodeTypeSize
def leafBitlistOffset : ℕ := leafStemOffset + StemSize
def leafCommitmentOffset : ℕ := leafBitlistOffset + bitlistSize
def leafC1CommitmentOffset : ℕ := leafCommitmentOffset + uncompressedSize
def leafC2CommitmentOffset : ℕ := leafC1CommitmentOffset + uncompressedSize
def leafChildrenOffset : ℕ := leafC2CommitmentOffset + uncompressedSize
def leafBasicDataSize : ℕ := 32
def leafSlotSize : ℕ := 32
def leafValueIndexSize : ℕ := 1
def singleSlotLeafSize : ℕ :=
  nodeTypeSize + StemSize + 2 * uncompressedSize + leafValueIndexSize + leafSlotSize
def eoaLeafSize : ℕ := nodeTypeSize + StemSize + 2 * uncompressedSize + leafBasicDataSize

/-- Modelled from the spec: the four node-type tag bytes are defined outside
src/; the spec fixes only that they are four distinct byte values. -/
def internalType : ℕ := 1

/-- Modelled from the spec: the generic-leaf tag byte. -/
def leafType : ℕ := 2

/-- Modelled from the spec: the externally-owned-account leaf tag byte. -/
def eoAccountType : ℕ := 3

/-- Modelled from the spec: the single-slot leaf tag byte. -/
def singleSlotType : ℕ := 4

/-- The bit-mask table `mask` (most significant bit first). -/
def maskTable : List ℕ := [0x80, 0x40, 0x20, 0x10, 0x08, 0x04, 0x02, 0x01]

/-- Lookup into the mask table, `mask[j]`. -/
def mask (j : ℕ) : ℕ := maskTable.getD j 0

/-- Embedding of the `bit` helper: out-of-range bit numbers yield `false`,
otherwise test bit `nr` of the bitlist under most-significant-bit-first
ordering within each byte. -/
def bit (bitlist : List ℕ) (nr : ℕ) : Bool :=
  if bitlist.length * 8 ≤ nr then false
  else decide (bitlist.getD (nr / 8) 0 &&& mask (nr % 8) ≠ 0)

/-- Modelled from the spec: the well-known empty-code-hash constant
(`EmptyCodeHash`, defined outside src/): the Keccak-256 hash of the empty
byte string. -/
def EmptyCodeHash : List ℕ :=
  [0xc5, 0xd2, 0x46, 0x01, 0x86, 0xf7, 0x23, 0x3c, 0x92, 0x7e, 0x7d, 0xb2,
   0xdc, 0xc7, 0x03, 0xc0, 0xe5, 0x00, 0xb6, 0x53, 0xca, 0x82, 0x27, 0x3b,
   0x7b, 0xfa, 0xd8, 0x04, 0x5d, 0x85, 0xa4, 0x70]

/-- Modelled from the spec: the uncompressed encoding of the external
`banderwagon.Identity` point; the concrete bytes are immaterial to every
claim, only that it is a fixed point value. -/
def banderwagonIdentity : List ℕ := List.replicate uncompressedSize 0

/-- Model of the external `Point.SetBytesUncompressed` decoder: accepts
exactly `uncompressedSize`-byte strings.  Which byte strings denote valid
group elements is abstracted away (no claim depends on it); a decoded point
is represented by its byte string. -/
def setBytesUncompressed (bs : List ℕ) : Option (List ℕ) :=
  if bs.length = uncompressedSize then some bs else none

/-- The in-memory node representation: a closed sum of the four variants the
codec produces.  Leaf values are `NodeWidth` optional byte blobs. -/
inductive VerkleNode where
  | internal (children : List VerkleNode) (commitment : List ℕ) (depth : ℕ)
  | leaf (stem : List ℕ) (values : List (Option (List ℕ)))
      (c1 c2 commitment : Option (List ℕ)) (depth : ℕ)
  | hashed
  | empty

/-- Decode errors, one constructor per distinct error value or format string
in the codec source. -/
inductive DecodeError where
  | payloadTooShort
  | invalidNodeEncoding
  | stemTooShort
  | bitlistTooShort
  | commitmentsTooShort
  | notEnoughValueData (i : ℕ)
  | setCommitmentFailed
  | setC1Failed
  | setC2Failed
  | setCnFailed
  | setRootFailed
deriving DecidableEq

/-- Result of a decode call: a node, a structured error, or a Go runtime
panic (out-of-range slice or index). -/
inductive DecodeResult where
  | ok (n : VerkleNode)
  | err (e : DecodeError)
  | panicked

/-- Model of the Go slice expression `s[a:b]`: defined only when
`a ≤ b ≤ len(s)`, otherwise the program panics (`none`). -/
def goSlice (s : List ℕ) (a b : ℕ) : Option (List ℕ) :=
  if a ≤ b ∧ b ≤ s.length then some ((s.drop a).take (b - a)) else none

/-- Model of the Go index expression `s[i]`: defined only when
`i < len(s)`. -/
def goIndex (s : List ℕ) (i : ℕ) : Option ℕ := s[i]?

/-- The children array built by `CreateInternalNode`: for each bitlist byte
in order, eight children, bit `j` of byte `i` (most significant first)
deciding whether child `8*i+j` is a `HashedNode` placeholder or `Empty`. -/
def childrenOfBitlist : List ℕ → List VerkleNode
  | [] => []
  | b :: rest =>
    ((List.range 8).map (fun j =>
      if b &&& mask j ≠ 0 then VerkleNode.hashed else VerkleNode.empty))
      ++ childrenOfBitlist rest

/-- Embedding of `CreateInternalNode`: reject a bitlist of the wrong size,
build the `NodeWidth` children from the bitlist, reject a commitment blob of
the wrong size, decode the commitment.  It performs no unchecked slicing, so
it cannot panic. -/
def CreateInternalNode (bitlist raw : List ℕ) (depth : ℕ) :
    Except DecodeError VerkleNode :=
  if bitlist.length ≠ bitlistSize then .error .invalidNodeEncoding
  else if raw.length ≠ uncompressedSize then .error .invalidNodeEncoding
  else
    match setBytesUncompressed raw with
    | none => .error .setCommitmentFailed
    | some pt => .ok (.internal (childrenOfBitlist bitlist) pt depth)

/-- The value-reading loop of `parseLeafNode`: walk the `NodeWidth` bit
positions carrying the value array and the running offset; a set bit consumes
`LeafValueSize` bytes after an explicit length check that reports the first
unsatisfiable index. -/
def leafValuesLoop (serialized bitlist : List ℕ) :
    Except DecodeError (ℕ → Option (List ℕ)) :=
  ((List.range NodeWidth).foldlM
    (fun (st : (ℕ → Option (List ℕ)) × ℕ) i =>
      if bit bitlist i then
        if serialized.length < st.2 + LeafValueSize then
          Except.error (DecodeError.notEnoughValueData i)
        else
          Except.ok (Function.update st.1 i (some ((serialized.drop st.2).take LeafValueSize)),
            st.2 + LeafValueSize)
      else Except.ok st)
    ((fun _ => none), leafChildrenOffset)).map Prod.fst

/-- Embedding of `parseLeafNode`: every slice is performed under an explicit
length check that returns a structured error, so the function cannot panic
and is typed `Except`. -/
def parseLeafNode (serialized : List ℕ) (depth : ℕ) : Except DecodeError VerkleNode :=
  if serialized.length < leafStemOffset + StemSize then .error .stemTooShort
  else
    if serialized.length < leafBitlistOffset + bitlistSize then .error .bitlistTooShort
    else
      if serialized.length < leafC2CommitmentOffset + uncompressedSize then
        .error .commitmentsTooShort
      else
        match setBytesUncompressed
            ((serialized.drop leafCommitmentOffset).take uncompressedSize) with
        | none => .error .setCommitmentFailed
        | some c =>
          match setBytesUncompressed
              ((serialized.drop leafC1CommitmentOffset).take uncompressedSize) with
          | none => .error .setC1Failed
          | some c1 =>
            match setBytesUncompressed
                ((serialized.drop leafC2CommitmentOffset).take uncompressedSize) with
            | none => .error .setC2Failed
            | some c2 =>
              match leafValuesLoop serialized
                  ((serialized.drop leafBitlistOffset).take bitlistSize) with
              | .error e => .error e
              | .ok vals =>
                .ok (.leaf ((serialized.drop leafStemOffset).take StemSize)
                  ((List.range NodeWidth).map vals) (some c1) (some c2) (some c) depth)

/-- Embedding of `parseEoAccountNode`: the basic-data slice is taken first
and no length is validated, so any input shorter than `eoaLeafSize` panics;
slot 0 is the basic-data blob, slot 1 the empty-code-hash constant, `c2` is
fixed to the group identity. -/
def parseEoAccountNode (serialized : List ℕ) (depth : ℕ) : DecodeResult :=
  match goSlice serialized (leafStemOffset + StemSize + 2 * uncompressedSize)
      (leafStemOffset + StemSize + 2 * uncompressedSize + leafBasicDataSize) with
  | none => .panicked
  | some basicData =>
    match goSlice serialized leafStemOffset (leafStemOffset + StemSize) with
    | none => .panicked
    | some stem =>
      match goSlice serialized (leafStemOffset + StemSize)
          (leafStemOffset + StemSize + uncompressedSize) with
      | none => .panicked
      | some c1Bytes =>
        match setBytesUncompressed c1Bytes with
        | none => .err .setC1Failed
        | some c1 =>
          match goSlice serialized (leafStemOffset + StemSize + uncompressedSize)
              (leafStemOffset + StemSize + 2 * uncompressedSize) with
          | none => .panicked
          | some rootBytes =>
            match setBytesUncompressed rootBytes with
            | none => .err .setRootFailed
            | some root =>
              .ok (.leaf stem
                (some basicData :: some EmptyCodeHash :: List.replicate (NodeWidth - 2) none)
                (some c1) (some banderwagonIdentity) (some root) depth)

/-- Embedding of `parseSingleSlotNode`: stem, half-commitment, root
commitment, slot index byte and slot blob are sliced with no length
validation, so any input shorter than `singleSlotLeafSize` panics; the slot
index chooses which of `c1`, `c2` is decoded, the other is fixed to the group
identity. -/
def parseSingleSlotNode (serialized : List ℕ) (depth : ℕ) : DecodeResult :=
  match goSlice serialized leafStemOffset (leafStemOffset + StemSize) with
  | none => .panicked
  | some stem =>
    match goSlice serialized (leafStemOffset + StemSize)
        (leafStemOffset + StemSize + uncompressedSize) with
    | none => .panicked
    | some cnBytes =>
      match goSlice serialized (leafStemOffset + StemSize + uncompressedSize)
          (leafStemOffset + StemSize + 2 * uncompressedSize) with
      | none => .panicked
      | some rootBytes =>
        match goIndex serialized (leafStemOffset + StemSize + 2 * uncompressedSize) with
        | none => .panicked
        | some idxByte =>
          match goSlice serialized
              (leafStemOffset + StemSize + 2 * uncompressedSize + leafValueIndexSize)
              (leafStemOffset + StemSize + 2 * uncompressedSize + leafValueIndexSize
                + leafSlotSize) with
          | none => .panicked
          | some slotBytes =>
            let idx := idxByte % 256
            let values : List (Option (List ℕ)) :=
              (List.range NodeWidth).map (fun k => if k = idx then some slotBytes else none)
            if idx < 128 then
              match setBytesUncompressed cnBytes with
              | none => .err .setC1Failed
              | some c1 =>
                match setBytesUncompressed rootBytes with
                | none => .err .setRootFailed
                | some root =>
                  .ok (.leaf stem values (some c1) (some banderwagonIdentity) (some root) depth)
            else
              match setBytesUncompressed cnBytes with
              | none => .err .setC2Failed
              | some c2 =>
                match setBytesUncompressed rootBytes with
                | none => .err .setRootFailed
                | some root =>
                  .ok (.leaf stem values (some banderwagonIdentity) (some c2) (some root) depth)

/-- Lift the result of a panic-free decode helper into a `DecodeResult`
(Go returns the pair from the helper unchanged). -/
def exceptToResult : Except DecodeError VerkleNode → DecodeResult
  | .ok n => .ok n
  | .error e => .err e

/-- Embedding of `ParseNode`: reject inputs shorter than one tag byte plus
one uncompressed group element before dispatching on the tag byte; unknown
tags report an invalid encoding.  The debug print in the source has no effect
on the returned value and is not modelled. -/
def ParseNode (serializedNode : List ℕ) (depth : ℕ) : DecodeResult :=
  if serializedNode.length < nodeTypeSize + uncompressedSize then
    .err .payloadTooShort
  else
    if serializedNode.getD 0 0 = leafType then
      exceptToResult (parseLeafNode serializedNode depth)
    else if serializedNode.getD 0 0 = internalType then
      match goSlice serializedNode internalBitlistOffset internalCommitmentOffset with
      | none => .panicked
      | some bl =>
        match goSlice serializedNode internalCommitmentOffset serializedNode.length with
        | none => .panicked
        | some raw => exceptToResult (CreateInternalNode bl raw depth)
    else if serializedNode.getD 0 0 = eoAccountType then
      parseEoAccountNode serializedNode depth
    else if serializedNode.getD 0 0 = singleSlotType then
      parseSingleSlotNode serializedNode depth
    else .err .invalidNodeEncoding

/-- A small concrete configuration used to instantiate the general theorems
below at a checkable input: an (unsupported) width-7 configuration with two
children. -/
def toyConfig : TreeConfig :=
  { width := 7
    nodeWidth := 2
    modulus := rBLS
    omegaIs := [2, 3]
    inverses := [5, 7]
    nodeWidthInversed := 0
    lg1 := [1, 5]
    multiExpThreshold := 1 }

/-!  Helper lemmas. -/

theorem getD_map_range {α : Type} (g : ℕ → α) (d : α) {n k : ℕ} (hk : k < n) :
    ((List.range n).map g).getD k d = g k := by
  rw [List.getD_eq_getElem _ _ (by simpa using hk)]
  simp

theorem goSlice_eq_some {s : List ℕ} {a b : ℕ} (hab : a ≤ b) (hb : b ≤ s.length) :
    goSlice s a b = some ((s.drop a).take (b - a)) := by
  unfold goSlice
  rw [if_pos ⟨hab, hb⟩]

theorem goSlice_eq_none {s : List ℕ} {a b : ℕ} (h : s.length < b) :
    goSlice s a b = none := by
  unfold goSlice
  rw [if_neg]
  rintro ⟨-, h2⟩
  omega

theorem goSlice_some_inv {s : List ℕ} {a b : ℕ} {l : List ℕ}
    (h : goSlice s a b = some l) :
    a ≤ b ∧ b ≤ s.length ∧ l = (s.drop a).take (b - a) := by
  unfold goSlice at h
  split at h
  · rename_i hc
    injection h with h
    exact ⟨hc.1, hc.2, h.symm⟩
  · cases h

theorem powerAcc_length (x acc : Fr) (n : ℕ) : (powerAcc x acc n).length = n := by
  induction n generalizing acc with
  | zero => rfl
  | succ n ih => simp [powerAcc, ih]

theorem powerAcc_getD (x : Fr) (acc : Fr) (n k : ℕ) (hk : k < n) :
    (powerAcc x acc n).getD k 0 = acc * x ^ k := by
  induction n generalizing acc k with
  | zero => omega
  | succ n ih =>
    cases k with
    | zero => simp [powerAcc]
    | succ k =>
      have hstep : (powerAcc x acc (n + 1)).getD (k + 1) 0
          = (powerAcc x (acc * x) n).getD k 0 := rfl
      rw [hstep, ih _ _ (by omega)]
      ring

theorem mask_eq_two_pow {j : ℕ} (hj : j < 8) : mask j = 2 ^ (7 - j) := by
  interval_cases j <;> decide

theorem land_two_pow_ne_zero_iff (x k : ℕ) : x &&& 2 ^ k ≠ 0 ↔ x.testBit k = true := by
  constructor
  · intro h
    by_contra hb
    apply h
    apply Nat.zero_of_testBit_eq_false
    intro i
    rw [Nat.testBit_land, Nat.testBit_two_pow]
    rcases eq_or_ne k i with rfl | hki
    · simp [Bool.eq_false_iff.mpr hb]
    · simp [hki]
  · intro h h0
    have hbit := congrArg (fun n => Nat.testBit n k) h0
    simp [Nat.testBit_land, Nat.testBit_two_pow, h] at hbit

/-!  Claim theorems. -/

/-- C6: any input shorter than the tag size plus one uncompressed group
element is rejected with the payload-too-short error before the tag byte is
even inspected, with no panic and no out-of-bounds read. -/
theorem parseNode_too_short_error (s : List ℕ) (d : ℕ)
    (h : s.length < nodeTypeSize + uncompressedSize) :
    ParseNode s d = .err .payloadTooShort := by
  unfold ParseNode
  rw [if_pos h]

theorem parseNode_too_short_error_witness :
    ([] : List ℕ).length < nodeTypeSize + uncompressedSize ∧
      ParseNode [] 0 = .err .payloadTooShort :=
  ⟨by decide, parseNode_too_short_error [] 0 (by decide)⟩

/-- C10: for every configuration width, supported or not, keys of unequal
lengths make `equalPaths` return `false` immediately: the length check
precedes the width dispatch, so no key byte is read and no panic can
occur. -/
theorem equalPaths_length_mismatch_false (tc : TreeConfig) (k1 k2 : List ℕ)
    (h : k1.length ≠ k2.length) : equalPaths tc k1 k2 = some false := by
  unfold equalPaths
  rw [if_pos h]

theorem equalPaths_length_mismatch_false_witness :
    ([0] : List ℕ).length ≠ ([] : List ℕ).length ∧
      equalPaths toyConfig [0] [] = some false :=
  ⟨by decide, equalPaths_length_mismatch_false toyConfig [0] [] (by decide)⟩

/-- C9: the `bit` helper is total: a bit number at or beyond eight times the
bitlist length yields `false` rather than an out-of-bounds read, and an
in-range bit number tests the bit under most-significant-bit-first ordering
within each byte. -/
theorem bit_total_msb_first (bl : List ℕ) (nr : ℕ) :
    (8 * bl.length ≤ nr → bit bl nr = false) ∧
    (nr < 8 * bl.length →
      (bit bl nr = true ↔ (bl.getD (nr / 8) 0).testBit (7 - nr % 8) = true)) := by
  constructor
  · intro h
    unfold bit
    rw [if_pos (by omega)]
  · intro h
    unfold bit
    rw [if_neg (by omega)]
    simp only [decide_eq_true_eq]
    rw [mask_eq_two_pow (Nat.mod_lt _ (by norm_num))]
    exact land_two_pow_ne_zero_iff _ _

theorem bit_total_msb_first_witness :
    (8 * ([128] : List ℕ).length ≤ 8 ∧ bit [128] 8 = false) ∧
      (0 < 8 * ([128] : List ℕ).length ∧
        (bit [128] 0 = true ↔ (([128] : List ℕ).getD (0 / 8) 0).testBit (7 - 0 % 8) = true)) :=
  ⟨⟨by decide, (bit_total_msb_first [128] 8).1 (by decide)⟩,
   ⟨by decide, (bit_total_msb_first [128] 0).2 (by decide)⟩⟩

/-- C2 (code bug): the width-10 branch of `equalPaths` masks the final byte
with `0xa0` (bits 7 and 5) instead of the top bits reserved for the
next-level split (`0xc0`): two equal-length keys agreeing on the first 31
bytes whose final bytes are `0x40` and `0x00` differ in the top bits of the
final byte, yet `equalPaths` returns `true` because bit 6 is not covered by
the `0xa0` mask. -/
theorem equalPaths_width10_mask_failing_input :
    equalPaths (GetTreeConfig 10)
        (List.replicate 31 0 ++ [0x40]) (List.replicate 31 0 ++ [0x00]) = some true ∧
      ((List.replicate 31 0 ++ [0x40]).getD 31 0) &&& 0xc0 ≠
        ((List.replicate 31 0 ++ [0x00]).getD 31 0) &&& 0xc0 := by
  exact ⟨by decide, by decide⟩

/-- C8: for each supported width, the configuration has exactly `2^w` roots
of unity and `2^w` barycentric inverses, the first root of unity is the
multiplicative identity, `inverses[0]` is the additive identity, and
`inverses[i] = 1 / (1 - ω^i)` for `1 ≤ i < 2^w`. -/
theorem getTreeConfig_tables (w : ℕ) (_hw : w = 8 ∨ w = 10) :
    (GetTreeConfig w).omegaIs.length = 2 ^ w ∧
    (GetTreeConfig w).inverses.length = 2 ^ w ∧
    (GetTreeConfig w).omegaIs.getD 0 0 = 1 ∧
    (GetTreeConfig w).inverses.getD 0 0 = 0 ∧
    (∀ i, 1 ≤ i → i < 2 ^ w →
      (GetTreeConfig w).inverses.getD i 0 = (1 - Scale2RootOfUnity w ^ i)⁻¹) := by
  have hpos : 0 < 2 ^ w := Nat.two_pow_pos w
  refine ⟨?_, ?_, ?_, ?_, ?_⟩
  · simp [GetTreeConfig, initTreeConfig, powerAcc_length]
  · simp only [GetTreeConfig, initTreeConfig, List.length_cons, List.length_map,
      List.length_range]
    omega
  · rw [show (GetTreeConfig w).omegaIs = powerAcc (Scale2RootOfUnity w) 1 (2 ^ w) from rfl]
    rw [powerAcc_getD _ _ _ _ hpos]
    simp
  · rfl
  · intro i h1 h2
    obtain ⟨j, rfl⟩ : ∃ j, i = j + 1 := ⟨i - 1, by omega⟩
    have hcons : (GetTreeConfig w).inverses.getD (j + 1) 0
        = ((List.range (2 ^ w - 1)).map (fun j =>
            frDiv 1 (1 - (powerAcc (Scale2RootOfUnity w) 1 (2 ^ w)).getD (j + 1) 0))).getD j 0 :=
      rfl
    rw [hcons, getD_map_range _ _ (by omega), powerAcc_getD _ _ _ _ (by omega)]
    simp [frDiv]

/-- C7: when the opening point lies outside the domain, each quotient entry
is the direct division `(f[i] - y) / (ω^i - z)`, with no accumulation across
entries. -/
theorem outerQuotients_pointwise (tc : TreeConfig) (f : List Fr) (z y : Fr)
    (_hz : ∀ i, i < tc.nodeWidth → tc.omegaIs.getD i 0 ≠ z) :
    (outerQuotients tc f z y).length = tc.nodeWidth ∧
    ∀ i, i < tc.nodeWidth →
      (outerQuotients tc f z y).getD i 0
        = (f.getD i 0 - y) * (tc.omegaIs.getD i 0 - z)⁻¹ := by
  constructor
  · simp [outerQuotients]
  · intro i hi
    unfold outerQuotients
    rw [getD_map_range _ _ hi]
    rfl

theorem outerQuotients_pointwise_witness :
    (∀ i, i < toyConfig.nodeWidth → toyConfig.omegaIs.getD i 0 ≠ (5 : Fr)) ∧
      ((outerQuotients toyConfig [4, 9] 5 6).length = toyConfig.nodeWidth ∧
       ∀ i, i < toyConfig.nodeWidth →
         (outerQuotients toyConfig [4, 9] 5 6).getD i 0
           = (([4, 9] : List Fr).getD i 0 - 6) * (toyConfig.omegaIs.getD i 0 - 5)⁻¹) :=
  ⟨by decide, outerQuotients_pointwise toyConfig [4, 9] 5 6 (by decide)⟩

theorem foldl_skip_zero (lg : List G1) (poly : List Fr) (l : List ℕ) (c : G1) :
    l.foldl (fun comm i =>
        if poly.getD i 0 = 0 then comm else comm + lg.getD i 0 * poly.getD i 0) c
      = c + (l.map (fun i => lg.getD i 0 * poly.getD i 0)).sum := by
  induction l generalizing c with
  | nil => simp
  | cons i l ih =>
    simp only [List.foldl_cons, List.map_cons, List.sum_cons]
    by_cases hz : poly.getD i 0 = 0
    · rw [if_pos hz, ih, hz, mul_zero, zero_add]
    · rw [if_neg hz, ih, add_assoc]

theorem zipWith_sum_eq (ps : List G1) (ss : List Fr) (h : ps.length = ss.length) :
    (List.zipWith (fun p s => s * p) ps ss).sum
      = ((List.range ss.length).map (fun i => ps.getD i 0 * ss.getD i 0)).sum := by
  induction ps generalizing ss with
  | nil =>
    cases ss with
    | nil => simp
    | cons s ss => simp at h
  | cons p ps ih =>
    cases ss with
    | nil => simp at h
    | cons s ss =>
      simp only [List.zipWith_cons_cons, List.sum_cons, List.length_cons]
      rw [List.range_succ_eq_map]
      simp only [List.map_cons, List.sum_cons]
      have hmap : List.map (fun i => (p :: ps).getD i 0 * (s :: ss).getD i 0)
            (List.map Nat.succ (List.range ss.length))
          = List.map (fun i => ps.getD i 0 * ss.getD i 0) (List.range ss.length) := by
        rw [List.map_map]
        rfl
      rw [hmap, ih ss (by simpa using h)]
      show s * p + _ = p * s + _
      ring_nf

theorem evalPoly_msm_eq_naive (tc : TreeConfig) (poly : List Fr)
    (h1 : poly.length = tc.nodeWidth) (h2 : tc.lg1.length = tc.nodeWidth) :
    linCombG1 tc.lg1 poly
      = (List.range poly.length).foldl
          (fun comm i =>
            if poly.getD i 0 = 0 then comm else comm + tc.lg1.getD i 0 * poly.getD i 0) 0 := by
  rw [foldl_skip_zero, zero_add]
  unfold linCombG1
  rw [zipWith_sum_eq _ _ (by omega)]

/-- C3: the multi-scalar-multiplication branch of `evalPoly` and the naive
weighted-sum branch that skips zero coefficients compute the same group
element, so the returned commitment does not depend on which side of the
multi-exponentiation threshold the non-zero count lies. -/
theorem evalPoly_threshold_independent (tc : TreeConfig) (poly : List Fr)
    (h1 : poly.length = tc.nodeWidth) (h2 : tc.lg1.length = tc.nodeWidth)
    (emptyChildren : ℕ)
    (_he : emptyChildren = (poly.filter (fun a => decide (a = 0))).length) :
    evalPoly tc poly emptyChildren = linCombG1 tc.lg1 poly ∧
    ∀ e, evalPoly tc poly e = evalPoly tc poly emptyChildren := by
  have hbr : ∀ e, evalPoly tc poly e = linCombG1 tc.lg1 poly := by
    intro e
    unfold evalPoly
    split
    · rfl
    · exact (evalPoly_msm_eq_naive tc poly h1 h2).symm
  exact ⟨hbr _, fun e => (hbr e).trans (hbr _).symm⟩

theorem evalPoly_threshold_independent_witness :
    (([3, 0] : List Fr).length = toyConfig.nodeWidth ∧
     toyConfig.lg1.length = toyConfig.nodeWidth ∧
     (1 : ℕ) = (([3, 0] : List Fr).filter (fun a => decide (a = 0))).length) ∧
      (evalPoly toyConfig [3, 0] 1 = linCombG1 toyConfig.lg1 [3, 0] ∧
       ∀ e, evalPoly toyConfig [3, 0] e = evalPoly toyConfig [3, 0] 1) :=
  ⟨⟨by decide, by decide, by decide⟩,
   evalPoly_threshold_independent toyConfig [3, 0] (by decide) (by decide) 1 (by decide)⟩

theorem innerStep_apply_of_ne (tc : TreeConfig) (f : List Fr) (index : ℕ)
    (q : ℕ → Fr) {i : ℕ} (h : i ≠ index) (j : ℕ) :
    innerStep tc f index q i j =
      if j = i then innerQi tc f index i
      else if j = index then
        q index - innerOm2 tc index i * innerQi tc f index i
      else q j := by
  unfold innerStep
  rw [if_neg h]
  by_cases hj1 : j = i
  · subst hj1
    rw [Function.update_noteq h, Function.update_same, if_pos rfl]
  · rw [if_neg hj1]
    by_cases hj2 : j = index
    · subst hj2
      rw [Function.update_same, Function.update_noteq (Ne.symm h), if_pos rfl]
      ring
    · rw [Function.update_noteq hj2, Function.update_noteq hj1, if_neg hj2]

theorem innerFold_apply_ne (tc : TreeConfig) (f : List Fr) (index : ℕ)
    (l : List ℕ) (q : ℕ → Fr) (j : ℕ) (hj : j ≠ index) :
    (l.foldl (innerStep tc f index) q) j
      = if j ∈ l then innerQi tc f index j else q j := by
  induction l generalizing q with
  | nil => simp
  | cons i l ih =>
    rw [List.foldl_cons, ih]
    by_cases hjl : j ∈ l
    · rw [if_pos hjl, if_pos (List.mem_cons_of_mem _ hjl)]
    · rw [if_neg hjl]
      by_cases hii : i = index
      · have hnot : j ∉ i :: l := by
          intro hmem
          rcases List.mem_cons.mp hmem with rfl | hmem
          · exact hj hii
          · exact hjl hmem
        rw [if_neg hnot]
        unfold innerStep
        rw [if_pos hii]
      · rw [innerStep_apply_of_ne tc f index q hii j]
        by_cases hji : j = i
        · subst hji
          rw [if_pos rfl, if_pos (List.mem_cons_self _ _)]
        · have hnot : j ∉ i :: l := by
            intro hmem
            rcases List.mem_cons.mp hmem with rfl | hmem
            · exact hji rfl
            · exact hjl hmem
          rw [if_neg hji, if_neg hj, if_neg hnot]

theorem innerFold_apply_index (tc : TreeConfig) (f : List Fr) (index : ℕ)
    (l : List ℕ) (q : ℕ → Fr) :
    (l.foldl (innerStep tc f index) q) index
      = q index - (l.map (fun i =>
          if i = index then 0
          else innerOm2 tc index i * innerQi tc f index i)).sum := by
  induction l generalizing q with
  | nil => simp
  | cons i l ih =>
    rw [List.foldl_cons, ih, List.map_cons, List.sum_cons]
    by_cases hii : i = index
    · rw [if_pos hii, zero_add]
      unfold innerStep
      rw [if_pos hii]
    · rw [if_neg hii]
      rw [innerStep_apply_of_ne tc f index q hii index]
      rw [if_neg (fun h => hii h.symm), if_pos rfl, sub_sub]

theorem map_if_zero_eq_filter_sum (l : List ℕ) (index : ℕ) (g : ℕ → Fr) :
    (l.map (fun i => if i = index then 0 else g i)).sum
      = ((l.filter (fun i => decide (i ≠ index))).map g).sum := by
  induction l with
  | nil => simp
  | cons i l ih =>
    by_cases h : i = index
    · subst h
      simp [ih]
    · simp [List.filter_cons, h, ih]

theorem toNat_sub_emod (a b n : ℕ) (ha : a < n) (hb : b < n) :
    (((a : ℤ) - (b : ℤ)) % (n : ℤ)).toNat = (a + n - b) % n := by
  rcases le_or_lt b a with h | h
  · rw [Int.emod_eq_of_lt (by omega) (by omega)]
    have hsum : a + n - b = (a - b) + n := by omega
    rw [hsum, Nat.add_mod_right, Nat.mod_eq_of_lt (by omega)]
    omega
  · have h2 : ((a : ℤ) - b) % n = (a : ℤ) - b + n := by
      rw [← Int.add_emod_self]
      exact Int.emod_eq_of_lt (by omega) (by omega)
    rw [h2, Nat.mod_eq_of_lt (by omega)]
    omega

/-- C4: `innerQuotients` realises the barycentric quotient-at-a-domain-point
formula: for `i ≠ index` the entry is
`(f[i] - f[index]) * ω^{-i} * inverses[(index - i) mod n]` (the negative
powers read from the root-of-unity table), and the entry at `index` is the
negated sum, accumulated from the additive identity, of
`ω^{i-index} * q[i]` over all `i ≠ index`. -/
theorem innerQuotients_barycentric (tc : TreeConfig) (f : List Fr) (index : ℕ)
    (hlen : tc.omegaIs.length = tc.nodeWidth) (hidx : index < tc.nodeWidth) :
    (∀ i, i < tc.nodeWidth → i ≠ index →
      (innerQuotients tc f index).getD i 0
        = (f.getD i 0 - f.getD index 0)
          * tc.omegaIs.getD ((tc.nodeWidth - i) % tc.nodeWidth) 0
          * tc.inverses.getD ((((index : ℤ) - (i : ℤ)) % (tc.nodeWidth : ℤ)).toNat) 0) ∧
    (innerQuotients tc f index).getD index 0
      = 0 - (((List.range tc.nodeWidth).filter (fun i => decide (i ≠ index))).map
          (fun (i : ℕ) =>
            tc.omegaIs.getD ((((i : ℕ) : ℤ) - (index : ℤ)) % ((tc.nodeWidth : ℕ) : ℤ)).toNat 0
              * (innerQuotients tc f index).getD i 0)).sum := by
  have hpart1 : ∀ i, i < tc.nodeWidth → i ≠ index →
      (innerQuotients tc f index).getD i 0 = innerQi tc f index i := by
    intro i hi hne
    unfold innerQuotients
    rw [getD_map_range _ _ hi]
    unfold innerQuotientsFun
    rw [innerFold_apply_ne tc f index _ _ i hne, if_pos (List.mem_range.mpr hi)]
  constructor
  · intro i hi hne
    rw [hpart1 i hi hne]
    unfold innerQi
    rw [hlen, toNat_sub_emod index i tc.nodeWidth hidx hi]
  · rw [show (innerQuotients tc f index).getD index 0
        = innerQuotientsFun tc f index index from
        getD_map_range _ _ hidx]
    unfold innerQuotientsFun
    rw [innerFold_apply_index]
    rw [map_if_zero_eq_filter_sum _ index
      (fun i => innerOm2 tc index i * innerQi tc f index i)]
    have hcong : ∀ i ∈ (List.range tc.nodeWidth).filter (fun i => decide (i ≠ index)),
        innerOm2 tc index i * innerQi tc f index i
          = tc.omegaIs.getD ((((i : ℤ) - (index : ℤ)) % (tc.nodeWidth : ℤ)).toNat) 0
              * (innerQuotients tc f index).getD i 0 := by
      intro i hi
      obtain ⟨hmem, hdec⟩ := List.mem_filter.mp hi
      have hilt : i < tc.nodeWidth := List.mem_range.mp hmem
      have hine : i ≠ index := of_decide_eq_true hdec
      rw [hpart1 i hilt hine]
      unfold innerOm2
      rw [Int.add_emod_self]
    rw [List.map_congr_left hcong]

theorem innerQuotients_barycentric_witness :
    (toyConfig.omegaIs.length = toyConfig.nodeWidth ∧ 0 < toyConfig.nodeWidth) ∧
      ((∀ i, i < toyConfig.nodeWidth → i ≠ 0 →
        (innerQuotients toyConfig [4, 9] 0).getD i 0
          = (([4, 9] : List Fr).getD i 0 - ([4, 9] : List Fr).getD 0 0)
            * toyConfig.omegaIs.getD
                ((toyConfig.nodeWidth - i) % toyConfig.nodeWidth) 0
            * toyConfig.inverses.getD
                ((((0 : ℕ) : ℤ) - (i : ℤ)) % (toyConfig.nodeWidth : ℤ)).toNat 0) ∧
      (innerQuotients toyConfig [4, 9] 0).getD 0 0
        = 0 - (((List.range toyConfig.nodeWidth).filter (fun i => decide (i ≠ 0))).map
            (fun (i : ℕ) =>
              toyConfig.omegaIs.getD
                  ((((i : ℕ) : ℤ) - ((0 : ℕ) : ℤ)) % ((toyConfig.nodeWidth : ℕ) : ℤ)).toNat 0
                * (innerQuotients toyConfig [4, 9] 0).getD i 0)).sum) :=
  ⟨⟨by decide, by decide⟩,
   innerQuotients_barycentric toyConfig [4, 9] 0 (by decide) (by decide)⟩

theorem childrenOfBitlist_length (bl : List ℕ) :
    (childrenOfBitlist bl).length = 8 * bl.length := by
  induction bl with
  | nil => rfl
  | cons b rest ih =>
    show ((List.range 8).map _ ++ childrenOfBitlist rest).length = _
    rw [List.length_append, ih]
    simp only [List.length_map, List.length_range, List.length_cons]
    omega

theorem childrenOfBitlist_getD (bl : List ℕ) (k : ℕ) (hk : k < 8 * bl.length) :
    (childrenOfBitlist bl).getD k VerkleNode.empty
      = if bl.getD (k / 8) 0 &&& mask (k % 8) ≠ 0
        then VerkleNode.hashed else VerkleNode.empty := by
  induction bl generalizing k with
  | nil => simp at hk
  | cons b rest ih =>
    show ((List.range 8).map _ ++ childrenOfBitlist rest).getD k VerkleNode.empty = _
    by_cases h8 : k < 8
    · rw [List.getD_append _ _ _ _ (by simpa using h8)]
      rw [getD_map_range _ _ h8]
      rw [Nat.div_eq_of_lt h8, Nat.mod_eq_of_lt h8]
      rfl
    · rw [List.getD_append_right _ _ _ _ (by simpa using h8)]
      simp only [List.length_map, List.length_range]
      rw [ih (k - 8) (by simp at hk; omega)]
      have e1 : (k - 8) % 8 = k % 8 := by omega
      have e2 : (b :: rest).getD (k / 8) 0 = rest.getD ((k - 8) / 8) 0 := by
        have hdiv : k / 8 = (k - 8) / 8 + 1 := by omega
        rw [hdiv]
        rfl
      rw [e1, e2]

theorem bit_in_range (bl : List ℕ) (k : ℕ) (h : k < 8 * bl.length) :
    bit bl k = decide (bl.getD (k / 8) 0 &&& mask (k % 8) ≠ 0) := by
  unfold bit
  rw [if_neg (by omega)]

theorem goIndex_eq_none {s : List ℕ} {i : ℕ} (h : s.length ≤ i) :
    goIndex s i = none := by
  unfold goIndex
  exact List.getElem?_eq_none h

theorem goIndex_eq_some {s : List ℕ} {i : ℕ} (h : i < s.length) :
    goIndex s i = some (s.getD i 0) := by
  unfold goIndex
  rw [List.getElem?_eq_getElem h, List.getD_eq_getElem _ _ h]

theorem setBytes_slice (s : List ℕ) (a : ℕ) (h : a + uncompressedSize ≤ s.length) :
    setBytesUncompressed ((s.drop a).take uncompressedSize)
      = some ((s.drop a).take uncompressedSize) := by
  unfold setBytesUncompressed
  rw [if_pos]
  simp only [List.length_take, List.length_drop]
  omega

theorem size_min : nodeTypeSize + uncompressedSize = 65 := rfl

theorem size_eoa : eoaLeafSize = 192 := rfl

theorem size_ss : singleSlotLeafSize = 193 := rfl

theorem size_bitlist : bitlistSize = 32 := rfl

theorem size_nodeWidth : NodeWidth = 256 := rfl

theorem off_ibl : internalBitlistOffset = 1 := rfl

theorem off_ico : internalCommitmentOffset = 33 := rfl

theorem off_stem : leafStemOffset = 1 := rfl

theorem off_stemEnd : leafStemOffset + StemSize = 32 := rfl

theorem off_cnEnd : leafStemOffset + StemSize + uncompressedSize = 96 := rfl

theorem off_rootEnd : leafStemOffset + StemSize + 2 * uncompressedSize = 160 := rfl

theorem off_idxEnd :
    leafStemOffset + StemSize + 2 * uncompressedSize + leafValueIndexSize = 161 := rfl

theorem off_slotEnd :
    leafStemOffset + StemSize + 2 * uncompressedSize + leafValueIndexSize
      + leafSlotSize = 193 := rfl

theorem off_eoaEnd :
    leafStemOffset + StemSize + 2 * uncompressedSize + leafBasicDataSize = 192 := rfl

theorem setBytes_of_length {bs : List ℕ} (h : bs.length = uncompressedSize) :
    setBytesUncompressed bs = some bs := by
  unfold setBytesUncompressed
  rw [if_pos h]

theorem setBytes_slice64 (s : List ℕ) (a : ℕ) (h : a + 64 ≤ s.length) :
    setBytesUncompressed ((s.drop a).take 64) = some ((s.drop a).take 64) := by
  apply setBytes_of_length
  have hu : uncompressedSize = 64 := rfl
  rw [hu]
  simp only [List.length_take, List.length_drop]
  omega

theorem exceptToResult_ne_panicked (x : Except DecodeError VerkleNode) :
    exceptToResult x ≠ .panicked := by
  cases x <;> simp [exceptToResult]

theorem exceptToResult_eq_ok {x : Except DecodeError VerkleNode} {n : VerkleNode} :
    exceptToResult x = .ok n ↔ x = .ok n := by
  cases x <;> simp [exceptToResult]

theorem parseLeafNode_ne_ok_internal (s : List ℕ) (d : ℕ) (ch : List VerkleNode)
    (pt : List ℕ) (dp : ℕ) :
    parseLeafNode s d ≠ .ok (.internal ch pt dp) := by
  intro h
  unfold parseLeafNode at h
  repeat' split at h
  all_goals first
    | (simp_all; done)
    | (rw [ite_eq_iff] at h
       rcases h with ⟨-, h⟩ | ⟨-, h⟩ <;> simp_all)

theorem parseEoAccountNode_ne_ok_internal (s : List ℕ) (d : ℕ)
    (ch : List VerkleNode) (pt : List ℕ) (dp : ℕ) :
    parseEoAccountNode s d ≠ .ok (.internal ch pt dp) := by
  intro h
  unfold parseEoAccountNode at h
  repeat' split at h
  all_goals first
    | (simp_all; done)
    | (rw [ite_eq_iff] at h
       rcases h with ⟨-, h⟩ | ⟨-, h⟩ <;> simp_all)

theorem parseSingleSlotNode_ne_ok_internal (s : List ℕ) (d : ℕ)
    (ch : List VerkleNode) (pt : List ℕ) (dp : ℕ) :
    parseSingleSlotNode s d ≠ .ok (.internal ch pt dp) := by
  intro h
  unfold parseSingleSlotNode at h
  repeat' split at h
  all_goals first
    | (simp_all; done)
    | (rw [ite_eq_iff] at h
       rcases h with ⟨-, h⟩ | ⟨-, h⟩ <;> simp_all)

theorem parseEoAccountNode_panics (s : List ℕ) (d : ℕ)
    (h : s.length < eoaLeafSize) : parseEoAccountNode s d = .panicked := by
  have h2 : s.length < 192 := size_eoa ▸ h
  unfold parseEoAccountNode
  rw [off_eoaEnd, off_rootEnd, off_cnEnd, off_stemEnd, off_stem]
  rw [goSlice_eq_none h2]

theorem parseEoAccountNode_no_panic (s : List ℕ) (d : ℕ)
    (h : eoaLeafSize ≤ s.length) : parseEoAccountNode s d ≠ .panicked := by
  have h2 : (192 : ℕ) ≤ s.length := size_eoa ▸ h
  unfold parseEoAccountNode
  rw [off_eoaEnd, off_rootEnd, off_cnEnd, off_stemEnd, off_stem]
  simp only [goSlice_eq_some (show (160 : ℕ) ≤ 192 by norm_num)
      (show (192 : ℕ) ≤ s.length from h2),
    goSlice_eq_some (show (1 : ℕ) ≤ 32 by norm_num) (show (32 : ℕ) ≤ s.length by omega),
    goSlice_eq_some (show (32 : ℕ) ≤ 96 by norm_num) (show (96 : ℕ) ≤ s.length by omega),
    goSlice_eq_some (show (96 : ℕ) ≤ 160 by norm_num)
      (show (160 : ℕ) ≤ s.length by omega)]
  norm_num
  simp only [setBytes_slice64 s 32 (by omega), setBytes_slice64 s 96 (by omega)]
  simp

theorem parseSingleSlotNode_panics (s : List ℕ) (d : ℕ)
    (h65 : nodeTypeSize + uncompressedSize ≤ s.length)
    (h : s.length < singleSlotLeafSize) : parseSingleSlotNode s d = .panicked := by
  have h2 : s.length < 193 := size_ss ▸ h
  have h3 : (65 : ℕ) ≤ s.length := size_min ▸ h65
  unfold parseSingleSlotNode
  rw [off_slotEnd, off_idxEnd, off_rootEnd, off_cnEnd, off_stemEnd, off_stem]
  simp only [goSlice_eq_some (show (1 : ℕ) ≤ 32 by norm_num)
    (show (32 : ℕ) ≤ s.length by omega)]
  by_cases h96 : s.length < 96
  · rw [goSlice_eq_none h96]
  · simp only [goSlice_eq_some (show (32 : ℕ) ≤ 96 by norm_num)
      (show (96 : ℕ) ≤ s.length by omega)]
    by_cases h160 : s.length < 160
    · rw [goSlice_eq_none h160]
    · simp only [goSlice_eq_some (show (96 : ℕ) ≤ 160 by norm_num)
        (show (160 : ℕ) ≤ s.length by omega)]
      by_cases h161 : s.length ≤ 160
      · rw [goIndex_eq_none h161]
      · simp only [goIndex_eq_some (show (160 : ℕ) < s.length by omega)]
        rw [goSlice_eq_none h2]

theorem parseSingleSlotNode_no_panic (s : List ℕ) (d : ℕ)
    (h : singleSlotLeafSize ≤ s.length) : parseSingleSlotNode s d ≠ .panicked := by
  have h2 : (193 : ℕ) ≤ s.length := size_ss ▸ h
  unfold parseSingleSlotNode
  rw [off_slotEnd, off_idxEnd, off_rootEnd, off_cnEnd, off_stemEnd, off_stem]
  simp only [goSlice_eq_some (show (1 : ℕ) ≤ 32 by norm_num)
      (show (32 : ℕ) ≤ s.length by omega),
    goSlice_eq_some (show (32 : ℕ) ≤ 96 by norm_num) (show (96 : ℕ) ≤ s.length by omega),
    goSlice_eq_some (show (96 : ℕ) ≤ 160 by norm_num)
      (show (160 : ℕ) ≤ s.length by omega),
    goIndex_eq_some (show (160 : ℕ) < s.length by omega),
    goSlice_eq_some (show (161 : ℕ) ≤ 193 by norm_num)
      (show (193 : ℕ) ≤ s.length from h2)]
  norm_num
  simp only [setBytes_slice64 s 32 (by omega), setBytes_slice64 s 96 (by omega)]
  by_cases hidx : s[160]?.getD 0 % 256 < 128 <;> simp [hidx]

/-- C1 (amended): decode on the internal and generic-leaf paths, and on any
input failing the shared minimum-size check, always returns a node or a
structured error; but the externally-owned-account and single-slot paths
perform no length validation of their own, so they panic (out-of-range Go
slice or index) exactly on the inputs that pass the minimum-size check yet
are shorter than their fixed layouts of `eoaLeafSize` and
`singleSlotLeafSize` bytes respectively. -/
theorem parseNode_panic_characterization (s : List ℕ) (d : ℕ) :
    (s.getD 0 0 ≠ eoAccountType → s.getD 0 0 ≠ singleSlotType →
      ParseNode s d ≠ .panicked) ∧
    (s.getD 0 0 = eoAccountType →
      (ParseNode s d = .panicked ↔
        nodeTypeSize + uncompressedSize ≤ s.length ∧ s.length < eoaLeafSize)) ∧
    (s.getD 0 0 = singleSlotType →
      (ParseNode s d = .panicked ↔
        nodeTypeSize + uncompressedSize ≤ s.length ∧ s.length < singleSlotLeafSize)) := by
  refine ⟨?_, ?_, ?_⟩
  · intro hne1 hne2 hcontra
    unfold ParseNode at hcontra
    by_cases hlen : s.length < nodeTypeSize + uncompressedSize
    · rw [if_pos hlen] at hcontra
      cases hcontra
    · rw [if_neg hlen] at hcontra
      by_cases htag1 : s.getD 0 0 = leafType
      · rw [if_pos htag1] at hcontra
        exact exceptToResult_ne_panicked _ hcontra
      · rw [if_neg htag1] at hcontra
        by_cases htag2 : s.getD 0 0 = internalType
        · rw [if_pos htag2] at hcontra
          have h65 : (65 : ℕ) ≤ s.length := by
            have hm := size_min
            omega
          rw [off_ico, off_ibl] at hcontra
          simp only [goSlice_eq_some (show (1 : ℕ) ≤ 33 by norm_num)
              (show (33 : ℕ) ≤ s.length by omega),
            goSlice_eq_some (show (33 : ℕ) ≤ s.length by omega)
              (le_refl s.length)] at hcontra
          exact exceptToResult_ne_panicked _ hcontra
        · rw [if_neg htag2, if_neg hne1, if_neg hne2] at hcontra
          cases hcontra
  · intro htag
    constructor
    · intro hp
      unfold ParseNode at hp
      by_cases hlen : s.length < nodeTypeSize + uncompressedSize
      · rw [if_pos hlen] at hp
        cases hp
      · rw [if_neg hlen, htag] at hp
        rw [if_neg (by decide), if_neg (by decide), if_pos rfl] at hp
        refine ⟨by omega, ?_⟩
        by_contra hbig
        exact parseEoAccountNode_no_panic s d (by omega) hp
    · rintro ⟨hlen, hshort⟩
      unfold ParseNode
      rw [if_neg (by omega), htag]
      rw [if_neg (by decide), if_neg (by decide), if_pos rfl]
      exact parseEoAccountNode_panics s d hshort
  · intro htag
    constructor
    · intro hp
      unfold ParseNode at hp
      by_cases hlen : s.length < nodeTypeSize + uncompressedSize
      · rw [if_pos hlen] at hp
        cases hp
      · rw [if_neg hlen, htag] at hp
        rw [if_neg (by decide), if_neg (by decide), if_neg (by decide), if_pos rfl] at hp
        refine ⟨by omega, ?_⟩
        by_contra hbig
        exact parseSingleSlotNode_no_panic s d (by omega) hp
    · rintro ⟨hlen, hshort⟩
      unfold ParseNode
      rw [if_neg (by omega), htag]
      rw [if_neg (by decide), if_neg (by decide), if_neg (by decide), if_pos rfl]
      exact parseSingleSlotNode_panics s d hlen hshort

theorem parseNode_panic_characterization_witness :
    ((3 :: List.replicate 64 0 : List ℕ).getD 0 0 = eoAccountType ∧
     nodeTypeSize + uncompressedSize ≤ (3 :: List.replicate 64 0 : List ℕ).length ∧
     (3 :: List.replicate 64 0 : List ℕ).length < eoaLeafSize) ∧
      ParseNode (3 :: List.replicate 64 0) 0 = .panicked :=
  ⟨⟨by decide, by decide, by decide⟩,
   ((parseNode_panic_characterization (3 :: List.replicate 64 0) 0).2.1
     (by decide)).mpr ⟨by decide, by decide⟩⟩

/-- C1 counterexample: a 65-byte externally-owned-account blob passes the
minimum-size check but makes decode panic with an out-of-range slice instead
of returning a structured truncation error, refuting the claim that the
externally-owned-account decode path validates slice lengths before indexing
and never panics. -/
theorem parseNode_eoa_truncated_panics :
    ParseNode (3 :: List.replicate 64 0) 0 = DecodeResult.panicked := rfl

/-- C5: every serialized internal node accepted by decode has exactly
`NodeWidth` children, and child `k` is a `HashedNode` placeholder exactly
when bit `k` of the bitlist bytes is set under most-significant-bit-first
ordering (so an all-zero bitlist yields only `Empty` children, and a bitlist
with only bit `k` set yields a `HashedNode` at exactly position `k`). -/
theorem parseNode_internal_children_bitlist (s : List ℕ) (d : ℕ)
    (ch : List VerkleNode) (pt : List ℕ) (dp : ℕ)
    (h : ParseNode s d = .ok (.internal ch pt dp)) :
    ch.length = NodeWidth ∧
    ∀ k, k < NodeWidth →
      ch.getD k VerkleNode.empty
        = if bit ((s.drop internalBitlistOffset).take bitlistSize) k
          then VerkleNode.hashed else VerkleNode.empty := by
  unfold ParseNode at h
  by_cases hlen : s.length < nodeTypeSize + uncompressedSize
  · rw [if_pos hlen] at h
    cases h
  · rw [if_neg hlen] at h
    by_cases htag1 : s.getD 0 0 = leafType
    · rw [if_pos htag1] at h
      rw [exceptToResult_eq_ok] at h
      exact absurd h (parseLeafNode_ne_ok_internal s d ch pt dp)
    · rw [if_neg htag1] at h
      by_cases htag2 : s.getD 0 0 = internalType
      · rw [if_pos htag2] at h
        have h65 : (65 : ℕ) ≤ s.length := by
          have hm := size_min
          omega
        rw [off_ico, off_ibl] at h
        simp only [goSlice_eq_some (show (1 : ℕ) ≤ 33 by norm_num)
            (show (33 : ℕ) ≤ s.length by omega),
          goSlice_eq_some (show (33 : ℕ) ≤ s.length by omega)
            (le_refl s.length)] at h
        rw [show (33 : ℕ) - 1 = 32 from rfl] at h
        rw [exceptToResult_eq_ok] at h
        unfold CreateInternalNode at h
        by_cases hbl : ((s.drop 1).take 32).length ≠ bitlistSize
        · rw [if_pos hbl] at h
          cases h
        · rw [if_neg hbl] at h
          rw [not_not] at hbl
          by_cases hraw : ((s.drop 33).take (s.length - 33)).length ≠ uncompressedSize
          · rw [if_pos hraw] at h
            cases h
          · rw [if_neg hraw] at h
            rw [not_not] at hraw
            rw [setBytes_of_length hraw] at h
            injection h with h
            injection h with hch hpt hdp
            subst hch
            have hk8all : 8 * ((s.drop 1).take 32).length = 256 := by
              rw [hbl, size_bitlist]
            constructor
            · rw [childrenOfBitlist_length, hbl, size_bitlist, size_nodeWidth]
            · intro k hk
              rw [size_nodeWidth] at hk
              rw [off_ibl, size_bitlist]
              rw [childrenOfBitlist_getD _ _ (by omega)]
              rw [bit_in_range _ _ (by omega)]
              by_cases hP : ((s.drop 1).take 32).getD (k / 8) 0 &&& mask (k % 8) ≠ 0
              · rw [if_pos hP, if_pos (by simp only [decide_eq_true_eq]; exact hP)]
              · rw [if_neg hP, if_neg (by simp only [decide_eq_true_eq]; exact hP)]
      · rw [if_neg htag2] at h
        by_cases htag3 : s.getD 0 0 = eoAccountType
        · rw [if_pos htag3] at h
          exact absurd h (parseEoAccountNode_ne_ok_internal s d ch pt dp)
        · rw [if_neg htag3] at h
          by_cases htag4 : s.getD 0 0 = singleSlotType
          · rw [if_pos htag4] at h
            exact absurd h (parseSingleSlotNode_ne_ok_internal s d ch pt dp)
          · rw [if_neg htag4] at h
            cases h

theorem parseNode_internal_children_bitlist_witness :
    ParseNode ((1 : ℕ) :: (List.replicate 32 0 ++ List.replicate 64 0)) 0
        = .ok (.internal (childrenOfBitlist (List.replicate 32 0))
            (List.replicate 64 0) 0) ∧
      ((childrenOfBitlist (List.replicate 32 0)).length = NodeWidth ∧
       ∀ k, k < NodeWidth →
         (childrenOfBitlist (List.replicate 32 0)).getD k VerkleNode.empty
           = if bit ((((1 : ℕ) :: (List.replicate 32 0 ++ List.replicate 64 0)).drop
                 internalBitlistOffset).take bitlistSize) k
             then VerkleNode.hashed else VerkleNode.empty) :=
  ⟨rfl, parseNode_internal_children_bitlist _ 0 _ _ 0 rfl⟩

theorem getTreeConfig_tables_witness :
    ((8 : ℕ) = 8 ∨ (8 : ℕ) = 10) ∧
      ((GetTreeConfig 8).omegaIs.length = 2 ^ 8 ∧
       (GetTreeConfig 8).inverses.length = 2 ^ 8 ∧
       (GetTreeConfig 8).omegaIs.getD 0 0 = 1 ∧
       (GetTreeConfig 8).inverses.getD 0 0 = 0 ∧
       (∀ i, 1 ≤ i → i < 2 ^ 8 →
         (GetTreeConfig 8).inverses.getD i 0 = (1 - Scale2RootOfUnity 8 ^ i)⁻¹)) :=
  ⟨Or.inl rfl, getTreeConfig_tables 8 (Or.inl rfl)⟩

end Verkle
